import Mathlib

/-!
Verification development for the sublime-cli repository.

Python strings are modelled as lists of characters (`PyStr`); Python's
`str.strip` family is modelled with `List.dropWhile` (leading) and
`List.rdropWhile` (trailing).  Only the ASCII whitespace characters that
`str.strip()` removes are modelled (the rare non-ASCII Unicode whitespace
characters are outside the model).  Fallible Python code is modelled with
`Except`/`Option`; `sys.exit` and uncaught Python exceptions are explicit
error constructors.
-/

set_option maxHeartbeats 1000000

/-- Python strings, modelled as lists of characters. -/
abbrev PyStr := List Char

/-- Characters removed by Python's argumentless `str.strip()` (ASCII part). -/
def isPyWs (c : Char) : Bool :=
  c = ' ' || c = '\t' || c = '\n' || c = '\r' || c = '\x0b' || c = '\x0c'

/-- Model of Python `s.strip(chars)`: drop characters satisfying `p` from
both ends of the string. -/
def pyStripP (p : Char → Bool) (l : PyStr) : PyStr :=
  (l.dropWhile p).rdropWhile p

/-- Model of Python `s.strip()` (whitespace strip). -/
def pyStrip (l : PyStr) : PyStr := pyStripP isPyWs l

/-- Model of `line.strip(";").strip()` from `helper.load_detections`. -/
def stripSemi (l : PyStr) : PyStr := pyStrip (pyStripP (fun c => c = ';') l)

/-- Model of `line.strip("\n")` followed by `line.strip()`, the line
normalisation done at the top of the `load_detections` loop. -/
def fullStrip (l : PyStr) : PyStr := pyStrip (pyStripP (fun c => c = '\n') l)

/-- Model of Python `s.startswith(c)` for a single-character prefix `c`. -/
def startsWithCh (c : Char) : PyStr → Bool
  | [] => false
  | d :: _ => d = c

/-! ### HTTP client (`api.py`, `Sublime._request` / `handle_error_response`) -/

/-- Error classes raised by `Sublime.handle_error_response` (`error.py`). -/
inductive ApiErrorKind where
  | invalidRequest
  | rateLimit
  | apiError
deriving DecidableEq, Repr

/-- Model of the parsed `resp_body["error"]` object: `message` is `none`
when the object has no "message" key. -/
structure ErrorObj where
  message : Option String
deriving DecidableEq, Repr

/-- Outcome of the tail of `Sublime._request`: the parsed body, a raised
`SublimeError` subclass, or an uncaught Python exception (`KeyError`). -/
inductive RequestOutcome (α : Type) where
  | ok (body : α)
  | sublimeError (kind : ApiErrorKind) (status : Nat)
  | pyError
deriving DecidableEq, Repr

/-- Model of `Sublime.handle_error_response` (api.py lines 137-163).
`errorField` is the result of looking up "error" in the response body:
`none` when the lookup raises (no such key, or the body is not a dict),
which the bare `except` turns into a generic `APIError`.  When the error
object lacks a "message" key the `error_data["message"]` accesses raise an
uncaught `KeyError` (they are outside the `try`). -/
def handle_error_response {α : Type} (status : Nat) (errorField : Option ErrorObj) :
    RequestOutcome α :=
  match errorField with
  | none => .sublimeError .apiError status
  | some e =>
    match e.message with
    | none => .pyError
    | some _ =>
      if status = 400 ∨ status = 404 then .sublimeError .invalidRequest status
      else if status = 429 then .sublimeError .rateLimit status
      else .sublimeError .apiError status

/-- Model of the end of `Sublime._request` (api.py lines 132-135): call
`handle_error_response` for status codes of at least 400, otherwise return
the parsed body. -/
def request_complete {α : Type} (status : Nat) (errorField : Option ErrorObj) (body : α) :
    RequestOutcome α :=
  if 400 ≤ status then handle_error_response status errorField
  else .ok body

/-- Status-code to error-category map described by the spec: 400/404 give
`InvalidRequestError`, 429 gives `RateLimitError`, anything else gives
`APIError`. -/
def statusCategory (status : Nat) : ApiErrorKind :=
  if status = 400 ∨ status = 404 then .invalidRequest
  else if status = 429 then .rateLimit
  else .apiError

/-! ### Request URL and headers (`api.py`, `Sublime._request`) -/

/-- Model of Python `sep.join(parts)`. -/
def pyJoin (sep : String) : List String → String
  | [] => ""
  | s :: rest => rest.foldl (fun acc t => acc ++ sep ++ t) s

/-- Model of `Sublime.API_VERSION`. -/
def API_VERSION : String := "v1"

/-- Model of `url = "/".join([self.BASE_URL, self.API_VERSION, endpoint])`
(api.py line 100). -/
def build_request_url (base_url endpoint : String) : String :=
  pyJoin "/" [base_url, API_VERSION, endpoint]

/-- Model of the headers dict built in `Sublime._request` (api.py lines
96-99). -/
def request_headers (version api_key : String) : List (String × String) :=
  [("User-Agent", "sublime-cli/" ++ version), ("Key", api_key)]

/-! ### EML loaders (`util.load_eml_file_handle`, `cli/helper.load_eml`)

The email parsing (`email.message_from_file`) and the UTF-8 encoding of
`message.as_string()` are abstracted: the input of the model is the byte
sequence `message.as_string().encode('utf-8')`, and the model captures the
base64 encoding performed on it, one encoded character per list element. -/

/-- Standard base64 alphabet (RFC 4648), as used by `base64.b64encode`. -/
def b64Alphabet : PyStr :=
  "ABCDEFGHIJKLMNOPQRSTUVWXYZabcdefghijklmnopqrstuvwxyz0123456789+/".data

/-- URL-safe base64 alphabet, as used by `base64.urlsafe_b64encode`. -/
def b64UrlAlphabet : PyStr :=
  "ABCDEFGHIJKLMNOPQRSTUVWXYZabcdefghijklmnopqrstuvwxyz0123456789-_".data

/-- Character at position `n` of alphabet `ab` (only used with `n` below 64). -/
def encChar (ab : PyStr) (n : Nat) : Char := ab.getD n 'A'

/-- Base64-encode a byte sequence over alphabet `ab`, three bytes to four
characters, with '=' padding for a trailing group of one or two bytes. -/
def b64encodeWith (ab : PyStr) : List Nat → PyStr
  | [] => []
  | [a] => [encChar ab (a / 4), encChar ab (a % 4 * 16), '=', '=']
  | [a, b] => [encChar ab (a / 4), encChar ab (a % 4 * 16 + b / 16), encChar ab (b % 16 * 4), '=']
  | a :: b :: c :: rest =>
      encChar ab (a / 4) :: encChar ab (a % 4 * 16 + b / 16) ::
        encChar ab (b % 16 * 4 + c / 64) :: encChar ab (c % 64) :: b64encodeWith ab rest

/-- Model of `base64.b64encode` (standard alphabet). -/
def b64encode : List Nat → PyStr := b64encodeWith b64Alphabet

/-- Model of `base64.urlsafe_b64encode`. -/
def urlsafe_b64encode : List Nat → PyStr := b64encodeWith b64UrlAlphabet

/-- Model of `util.load_eml_file_handle` (util.py lines 153-177): the
parsed message's serialized UTF-8 bytes are standard-base64 encoded and the
result is returned as an ASCII string. -/
def load_eml_file_handle (msgBytes : List Nat) : PyStr := b64encode msgBytes

/-- Model of `cli/helper.load_eml` (helper.py lines 16-40): same as
`load_eml_file_handle` but using `base64.urlsafe_b64encode`. -/
def load_eml (msgBytes : List Nat) : PyStr := urlsafe_b64encode msgBytes

/-- Position of a character in the standard base64 alphabet. -/
def decChar (c : Char) : Option Nat := b64Alphabet.findIdx? (fun d => d = c)

/-- Decode one four-character base64 group, honouring '=' padding. -/
def decodeChunk (c1 c2 c3 c4 : Char) : Option (List Nat) := do
  let v1 ← decChar c1
  let v2 ← decChar c2
  if c3 = '=' then
    pure [v1 * 4 + v2 / 16]
  else
    let v3 ← decChar c3
    if c4 = '=' then
      pure [v1 * 4 + v2 / 16, v2 % 16 * 16 + v3 / 4]
    else
      let v4 ← decChar c4
      pure [v1 * 4 + v2 / 16, v2 % 16 * 16 + v3 / 4, v3 % 4 * 64 + v4]

/-- Standard base64 decoding of a sequence of four-character groups. -/
def b64decode : PyStr → Option (List Nat)
  | [] => some []
  | c1 :: c2 :: c3 :: c4 :: rest => do
      let chunk ← decodeChunk c1 c2 c3 c4
      let restBytes ← b64decode rest
      pure (chunk ++ restBytes)
  | _ => none

/-- Character substitution distinguishing the URL-safe base64 alphabet from
the standard one. -/
def urlSub (c : Char) : Char := if c = '+' then '-' else if c = '/' then '_' else c

/-! ### MBOX loader (`util.load_mbox`)

A message of the mbox is modelled by its subject header (`none` when the
header is missing) and the byte content of `message.as_string()`; the
per-message exception handler is not exercised in the model (encoding the
abstract byte content cannot fail). -/

/-- One message of an mbox file. -/
structure MboxMessage where
  subject : Option String
  content : List Nat

/-- Model of `subject = message['subject'] or "[Empty Subject]"`: a missing
or empty subject header falls back to the default. -/
def mboxSubject : Option String → String
  | none => "[Empty Subject]"
  | some t => if t = "" then "[Empty Subject]" else t

/-- Candidate keys tried by the `while key in raw_messages` loop of
`load_mbox` (util.py lines 246-251): the subject itself, then
subject " (1)", subject " (2)", and so on. -/
def candidateKey (subject : String) : Nat → String
  | 0 => subject
  | i + 1 => subject ++ " (" ++ toString (i + 1) ++ ")"

/-- Concatenation of a list of strings. -/
def concatAll : List String → String
  | [] => ""
  | s :: rest => s ++ concatAll rest

/-- Default used when the bounded candidate search runs out of fuel.  It is
longer than every used key, hence never itself used; the branch is
unreachable because the candidate keys are pairwise distinct, so among the
first `used.length + 1` of them at least one is free. -/
def overflowKey (used : List String) (subject : String) : String :=
  subject ++ " (" ++ concatAll used ++ "overflow)"

/-- Bounded model of the `while key in raw_messages` candidate search. -/
def freshKeyAux (used : List String) (subject : String) : Nat → Nat → String
  | _, 0 => overflowKey used subject
  | i, fuel + 1 =>
      if candidateKey subject i ∈ used then freshKeyAux used subject (i + 1) fuel
      else candidateKey subject i

/-- Key selected by `load_mbox` for a message, given the keys already in
`raw_messages`: the first unused candidate. -/
def freshKey (used : List String) (subject : String) : String :=
  freshKeyAux used subject 0 (used.length + 1)

/-- Loop body accumulator of `load_mbox`: the Python dict in insertion
order, as an association list. -/
def load_mboxAux (acc : List (String × PyStr)) : List MboxMessage → List (String × PyStr)
  | [] => acc
  | m :: rest =>
      load_mboxAux
        (acc ++ [(freshKey (acc.map Prod.fst) (mboxSubject m.subject), b64encode m.content)])
        rest

/-- Model of `util.load_mbox` (util.py lines 221-263): returns the map from
chosen keys to base64-encoded raw messages, in insertion order. -/
def load_mbox (msgs : List MboxMessage) : List (String × PyStr) :=
  load_mboxAux [] msgs

/-! ### YAML rule loader (`util.load_yml`)

The YAML parsing itself (`yaml.load`) is abstracted: the model's input is
the already-parsed YAML value (`YVal`), so scanner errors are outside the
model.  Python dicts are association lists in insertion order;
`AttributeError`/`TypeError` raised by using a non-list where a list is
expected are the explicit `pyTypeError` outcome. -/

/-- Parsed YAML values. -/
inductive YVal where
  | nullv
  | boolv (b : Bool)
  | intv (n : Int)
  | strv (s : String)
  | listv (items : List YVal)
  | mapv (entries : List (String × YVal))

/-- Python dict lookup, `none` when the key is absent. -/
def ylookup (m : List (String × YVal)) (k : String) : Option YVal :=
  (m.find? (fun p => p.1 = k)).map Prod.snd

/-- Python `dict.get(k, default)`. -/
def yget (m : List (String × YVal)) (k : String) (d : YVal) : YVal :=
  match ylookup m k with
  | none => d
  | some v => v

/-- Python truthiness of a parsed YAML value. -/
def ytruthy : YVal → Bool
  | .nullv => false
  | .boolv b => b
  | .intv n => decide (n ≠ 0)
  | .strv s => !s.isEmpty
  | .listv l => !l.isEmpty
  | .mapv m => !m.isEmpty

/-- Python `v == s` comparison of a YAML value against a string literal
(values of other types compare unequal). -/
def yIsStr (v : YVal) (s : String) : Bool :=
  match v with
  | .strv t => t = s
  | _ => false

/-- Python iteration over a value: lists yield their items, strings their
characters (as one-character strings), dicts their keys; iterating any
other value raises `TypeError` (`none`). -/
def pyIter : YVal → Option (List YVal)
  | .listv l => some l
  | .strv s => some (s.data.map (fun c => .strv (String.singleton c)))
  | .mapv m => some (m.map (fun p => .strv p.1))
  | _ => none

/-- Record built by `safe_yaml_filter`: exactly the two fields "source" and
"name" copied out of a rule/query mapping. -/
structure YRule where
  source : YVal
  name : YVal

/-- Error outcomes of `load_yml`; the first five model `LoadRuleError`
instances, `pyTypeError` models an uncaught Python exception. -/
inductive LoadYmlError where
  | invalidYml
  | invalidType
  | missingSource
  | invalidRuleList
  | invalidQueryList
  | pyTypeError
deriving DecidableEq, Repr

/-- Model of the inner `safe_yaml_filter` (util.py lines 398-405): raise
`LoadRuleError` when the mapping has no truthy "source", otherwise return
the record of the "source" and "name" values. -/
def safe_yaml_filter (m : List (String × YVal)) : Except LoadYmlError YRule :=
  if ytruthy (yget m "source" .nullv) then
    .ok ⟨yget m "source" .nullv, yget m "name" .nullv⟩
  else .error .missingSource

/-- Model of one of the two `for` loops of `load_yml` (util.py lines
407-425): each entry must be a dict, is filtered through
`safe_yaml_filter`, and the (always truthy) record is appended. -/
def processEntries (isRuleList : Bool) : List YVal → Except LoadYmlError (List YRule)
  | [] => .ok []
  | e :: rest =>
    match e with
    | .mapv m =>
      match safe_yaml_filter m with
      | .error err => .error err
      | .ok r =>
        match processEntries isRuleList rest with
        | .error err => .error err
        | .ok rs => .ok (r :: rs)
    | _ => .error (if isRuleList then .invalidRuleList else .invalidQueryList)

/-- Both `for` loops of `load_yml` in sequence, including the implicit
iterability requirement on the iterated values. -/
def runLoops (rules_yaml queries_yaml : YVal) : Except LoadYmlError (List YRule × List YRule) :=
  match pyIter rules_yaml with
  | none => .error .pyTypeError
  | some ritems =>
    match processEntries true ritems with
    | .error err => .error err
    | .ok rs =>
      match pyIter queries_yaml with
      | none => .error .pyTypeError
      | some qitems =>
        match processEntries false qitems with
        | .error err => .error err
        | .ok qs => .ok (rs, qs)

/-- Model of the `"type" not in rule_or_query_yaml` defaulting (util.py
lines 383-384): insert "type": "query" when the key is absent. -/
def typeDefaulted (m : List (String × YVal)) : List (String × YVal) :=
  if (ylookup m "type").isNone then m ++ [("type", .strv "query")] else m

/-- Model of the single-record path of `load_yml` (util.py lines 379-396),
taken when both the "rules" and the "queries" values are falsy: the whole
top-level mapping becomes the one listed rule or query, according to its
(possibly defaulted) "type". -/
def singleRecord (ig : Bool) (m : List (String × YVal)) :
    Except LoadYmlError (List YRule × List YRule) :=
  if !(yIsStr (yget (typeDefaulted m) "type" .nullv) "rule"
        || yIsStr (yget (typeDefaulted m) "type" .nullv) "query") then
    if ig then .ok ([], []) else .error .invalidType
  else if yIsStr (yget (typeDefaulted m) "type" .nullv) "rule" then
    match yget m "rules" (.listv []) with
    | .listv rl => runLoops (.listv (rl ++ [.mapv (typeDefaulted m)])) (yget m "queries" (.listv []))
    | _ => .error .pyTypeError
  else
    match yget m "queries" (.listv []) with
    | .listv ql => runLoops (yget m "rules" (.listv [])) (.listv (ql ++ [.mapv (typeDefaulted m)]))
    | _ => .error .pyTypeError

/-- Model of `util.load_yml` (util.py lines 343-427) on an already-parsed
YAML value. -/
def load_yml (ig : Bool) (y : YVal) : Except LoadYmlError (List YRule × List YRule) :=
  match y with
  | .mapv m =>
    if m.isEmpty then (if ig then .ok ([], []) else .error .invalidYml)
    else
      if !(ytruthy (yget m "rules" (.listv []))) && !(ytruthy (yget m "queries" (.listv []))) then
        singleRecord ig m
      else
        runLoops (yget m "rules" (.listv [])) (yget m "queries" (.listv []))
  | _ => if ig then .ok ([], []) else .error .invalidYml

/-- Record extracted from a listed rule/query entry (only applied to dict
entries). -/
def yRecOf (e : YVal) : YRule :=
  match e with
  | .mapv em => ⟨yget em "source" .nullv, yget em "name" .nullv⟩
  | _ => ⟨.nullv, .nullv⟩

/-- Whether a listed entry passes the loop without an error: a dict with a
truthy "source". -/
def yGoodEntry : YVal → Bool
  | .mapv em => ytruthy (yget em "source" .nullv)
  | _ => false

/-! ### PQL scanner (`cli/helper.load_detections`)

The file handle is modelled as the list of its lines (what successive
`readline` calls produce, trailing newlines included in the `strip("\n")`
normalisation); a file whose last line has no trailing newline simply has
that text as its last list element. -/

/-- Rule record built by `create_simple_detection` (helper.py lines
230-247): a dict with exactly the keys "detection", "name" and "id". -/
structure Detection where
  detection : Option PyStr
  name : Option PyStr
  id : Option PyStr
deriving DecidableEq, Repr

/-- Query record built by `create_query` (helper.py lines 249-258). -/
structure Query where
  query : Option PyStr
  name : Option PyStr
deriving DecidableEq, Repr

/-- Record emitted by `load_detections`: a rule when `query=False`, a query
when `query=True`. -/
inductive DetectionRec where
  | rule (d : Detection)
  | query (q : Query)
deriving DecidableEq, Repr

/-- Python truthiness of an optional string (None and "" are falsy). -/
def optTruthy : Option PyStr → Bool
  | none => false
  | some s => !s.isEmpty

/-- Model of the Python idiom `x.strip() if x else None`. -/
def pyStripOrNone : Option PyStr → Option PyStr
  | none => none
  | some s => if s.isEmpty then none else some (pyStrip s)

/-- Model of `create_simple_detection` (helper.py lines 230-247); `none`
models the `sys.exit(-1)` taken when all three arguments are falsy. -/
def create_simple_detection (detection_str detection_name detection_id : Option PyStr) :
    Option Detection :=
  if !optTruthy (pyStripOrNone detection_str) && !optTruthy (pyStripOrNone detection_name)
      && !optTruthy detection_id then
    none
  else some ⟨pyStripOrNone detection_str, pyStripOrNone detection_name, detection_id⟩

/-- Model of `create_query` (helper.py lines 249-258). -/
def create_query (query_str query_name : Option PyStr) : Query :=
  ⟨pyStripOrNone query_str, pyStripOrNone query_name⟩

/-- Loop state of `load_detections`: the records collected so far and the
`detection_str`, `detection_name` and `comment_exists` variables. -/
structure ScanState where
  detections : List DetectionRec
  detection_str : PyStr
  detection_name : PyStr
  comment_exists : Bool
deriving DecidableEq, Repr

/-- Errors raised by `load_detections`; `exit` models the `sys.exit(-1)`
reachable through `create_simple_detection`. -/
inductive LoadDetectionError where
  | commentedOut (name : PyStr)
  | missingDetection (name : PyStr)
  | noDetections
  | exit
deriving DecidableEq, Repr

/-- Record emission shared by the blank-line branch (helper.py lines
134-141) and the end-of-file branch (lines 176-183): build a query or a
simple detection from the accumulated `detection_str`/`detection_name`. -/
def flushRecord (q : Bool) (st : ScanState) : Except LoadDetectionError (List DetectionRec) :=
  if q then
    .ok (st.detections ++ [.query (create_query (some st.detection_str) (some st.detection_name))])
  else
    match create_simple_detection (some st.detection_str) (some st.detection_name) none with
    | none => .error .exit
    | some d => .ok (st.detections ++ [.rule d])

/-- One iteration of the `while line` loop (helper.py lines 116-173):
normalise the line, skip comments (setting `comment_exists`), record names,
flush the pending detection at blank lines, and accumulate other lines into
`detection_str` surrounded by single spaces. -/
def scanStep (q ig : Bool) (st : ScanState) (raw : PyStr) : Except LoadDetectionError ScanState :=
  if startsWithCh '#' (fullStrip raw) then
    .ok ⟨st.detections, st.detection_str, st.detection_name, true⟩
  else if startsWithCh ';' (fullStrip raw) then
    .ok ⟨st.detections, st.detection_str, stripSemi (fullStrip raw), st.comment_exists⟩
  else if (fullStrip raw).isEmpty then
    if !st.detection_str.isEmpty then
      match flushRecord q st with
      | .error e => .error e
      | .ok ds => .ok ⟨ds, [], [], false⟩
    else if !st.detection_name.isEmpty then
      if ig then .ok ⟨st.detections, [], [], false⟩
      else .error (if st.comment_exists then .commentedOut st.detection_name
                   else .missingDetection st.detection_name)
    else .ok ⟨st.detections, [], [], false⟩
  else
    .ok ⟨st.detections, st.detection_str ++ [' '] ++ fullStrip raw ++ [' '],
         st.detection_name, st.comment_exists⟩

/-- The whole `while line` loop. -/
def scanLines (q ig : Bool) : ScanState → List PyStr → Except LoadDetectionError ScanState
  | st, [] => .ok st
  | st, raw :: rest =>
    match scanStep q ig st raw with
    | .error e => .error e
    | .ok st2 => scanLines q ig st2 rest

/-- End-of-file handling after the loop (helper.py lines 176-205): the same
emission logic as the blank-line branch, without the state reset. -/
def eofFlush (q ig : Bool) (st : ScanState) : Except LoadDetectionError ScanState :=
  if !st.detection_str.isEmpty then
    match flushRecord q st with
    | .error e => .error e
    | .ok ds => .ok ⟨ds, st.detection_str, st.detection_name, st.comment_exists⟩
  else if !st.detection_name.isEmpty then
    if ig then .ok st
    else .error (if st.comment_exists then .commentedOut st.detection_name
                 else .missingDetection st.detection_name)
  else .ok st

/-- Final check that at least one record was loaded (helper.py lines
207-226). -/
def finalCheck (ig : Bool) (st : ScanState) : Except LoadDetectionError (List DetectionRec) :=
  if st.detections.isEmpty then
    if !st.detection_name.isEmpty then
      if ig then .ok st.detections else .error (.missingDetection st.detection_name)
    else
      if ig then .ok st.detections else .error .noDetections
  else .ok st.detections

/-- Model of `cli/helper.load_detections` (helper.py lines 93-228). -/
def load_detections (q ig : Bool) (lines : List PyStr) :
    Except LoadDetectionError (List DetectionRec) :=
  match scanLines q ig ⟨[], [], [], false⟩ lines with
  | .error e => .error e
  | .ok st =>
    match eofFlush q ig st with
    | .error e => .error e
    | .ok st2 => finalCheck ig st2

/-- Source text of a record (the "detection" or "query" field). -/
def recSrc : DetectionRec → Option PyStr
  | .rule d => d.detection
  | .query qq => qq.query

/-- Name of a record. -/
def recName : DetectionRec → Option PyStr
  | .rule d => d.name
  | .query qq => qq.name

/-! #### Specification-side view of the scanner: blank-separated blocks -/

/-- The input lines, stripped, with comment lines removed (name lines and
blank lines kept). -/
def processedLines (lines : List PyStr) : List PyStr :=
  (lines.map fullStrip).filter (fun l => !(startsWithCh '#' l))

/-- The non-comment, non-name stripped lines, blank lines kept as
separators. -/
def contentLines (lines : List PyStr) : List PyStr :=
  (processedLines lines).filter (fun l => !(startsWithCh ';' l))

/-- Split a line sequence at its blank lines (the separators are removed;
empty segments are kept). -/
def splitBlank : List PyStr → List (List PyStr)
  | [] => [[]]
  | l :: ls =>
    if l.isEmpty then [] :: splitBlank ls
    else
      match splitBlank ls with
      | [] => [[l]]
      | r :: rs => (l :: r) :: rs

/-- The maximal runs of non-blank content lines of the input, in order. -/
def runsOf (lines : List PyStr) : List (List PyStr) :=
  (splitBlank (contentLines lines)).filter (fun r => !r.isEmpty)

/-- The concatenation performed by the scanner: each line surrounded by
single spaces, in order. -/
def rawJoin (rs : List PyStr) : PyStr :=
  (rs.map (fun l => [' '] ++ l ++ [' '])).flatten

/-- The whitespace-normalised join of a run's lines: the run's lines joined
in order with the surrounding whitespace stripped. -/
def joinRun (r : List PyStr) : PyStr := pyStrip (rawJoin r)

/-- Content lines of a block (its name lines removed). -/
def blockContent (b : List PyStr) : List PyStr :=
  b.filter (fun l => !(startsWithCh ';' l))

/-- Name attached to a block: the stripped content of its last name line,
or the default `nm` when the block has no name line. -/
def blockNameFrom (nm : PyStr) : List PyStr → PyStr
  | [] => nm
  | l :: b => if startsWithCh ';' l then blockNameFrom (stripSemi l) b else blockNameFrom nm b

/-- A block reduced to its run of content lines and its name. -/
def blockPair (b : List PyStr) : List PyStr × PyStr :=
  (blockContent b, blockNameFrom [] b)

/-- The record-producing blocks of the input: split the stripped,
comment-free lines at blank lines; a block with no content line produces no
record. -/
def blocksOf (lines : List PyStr) : List (List PyStr × PyStr) :=
  ((splitBlank (processedLines lines)).map blockPair).filter (fun p => !p.1.isEmpty)

/-- Name field of a record: an empty accumulated name becomes `None`. -/
def nameOpt (nm : PyStr) : Option PyStr := if nm.isEmpty then none else some nm

/-- Accumulator form of the block splitter, used to relate the scanner's
loop state to `blocksOf`: given the pending run `cur` and pending name
`nm`, returns the completed blocks together with the final pending run and
name. -/
def blocksAcc (cur : List PyStr) (nm : PyStr) : List PyStr →
    List (List PyStr × PyStr) × List PyStr × PyStr
  | [] => ([], cur, nm)
  | l :: ls =>
    if startsWithCh ';' l then blocksAcc cur (stripSemi l) ls
    else if l.isEmpty then
      if cur.isEmpty then blocksAcc [] [] ls
      else ((cur, nm) :: (blocksAcc [] [] ls).1, (blocksAcc [] [] ls).2)
    else blocksAcc (cur ++ [l]) nm ls

/-- Record built from a completed block. -/
def mkRec (q : Bool) (p : List PyStr × PyStr) : DetectionRec :=
  if q then .query ⟨some (joinRun p.1), nameOpt p.2⟩
  else .rule ⟨some (joinRun p.1), nameOpt p.2, none⟩

/-- Completed blocks of `blocksAcc`, including the final pending one when
its run is nonempty. -/
def blocksFullFrom (cur : List PyStr) (nm : PyStr) (ls : List PyStr) :
    List (List PyStr × PyStr) :=
  (blocksAcc cur nm ls).1 ++
    (if (blocksAcc cur nm ls).2.1.isEmpty then [] else [(blocksAcc cur nm ls).2])

/-- Invariant of the pending run: its lines are nonempty and stripped. -/
def goodRun (cur : List PyStr) : Prop :=
  ∀ x ∈ cur, x.isEmpty = false ∧ pyStrip x = x

/-- Relation between two scanner states that agree except possibly on the
`comment_exists` flag. -/
def relState (st t : ScanState) : Prop :=
  st.detections = t.detections ∧ st.detection_str = t.detection_str ∧
    st.detection_name = t.detection_name

/-! ## Theorems -/

/-! ### Generic facts about the strip model -/

theorem dropWhile_eq_self_head {α : Type} (p : α → Bool) (b : α) (t : List α)
    (h : (b :: t).dropWhile p = b :: t) : p b = false := by
  by_cases hb : p b
  · rw [List.dropWhile_cons_of_pos hb] at h
    have h1 : t.dropWhile p <:+ t := List.dropWhile_suffix p
    have h2 := h1.length_le
    rw [h] at h2
    simp at h2
  · simpa using hb

theorem dropWhile_pyStripP (p : Char → Bool) (l : PyStr) :
    (pyStripP p l).dropWhile p = pyStripP p l := by
  unfold pyStripP
  have hmm : (l.dropWhile p).dropWhile p = l.dropWhile p := List.dropWhile_idempotent p l
  have hpre := List.rdropWhile_prefix p (l.dropWhile p)
  rcases hy : (l.dropWhile p).rdropWhile p with _ | ⟨b, y'⟩
  · simp
  · rw [hy] at hpre
    obtain ⟨s, hs⟩ := hpre
    have hsm : l.dropWhile p = b :: (y' ++ s) := by
      rw [← hs]; simp
    rw [hsm] at hmm
    have hb := dropWhile_eq_self_head p b (y' ++ s) hmm
    rw [List.dropWhile_cons_of_neg (by simp [hb])]

theorem pyStripP_idem (p : Char → Bool) (l : PyStr) :
    pyStripP p (pyStripP p l) = pyStripP p l := by
  conv_lhs => rw [pyStripP, dropWhile_pyStripP]
  show ((l.dropWhile p).rdropWhile p).rdropWhile p = pyStripP p l
  rw [List.rdropWhile_idempotent]
  rfl

theorem pyStripP_head (p : Char → Bool) (l : PyStr) (b : Char) (t : PyStr)
    (h : pyStripP p l = b :: t) : p b = false := by
  have h1 := dropWhile_pyStripP p l
  rw [h] at h1
  exact dropWhile_eq_self_head p b t h1

theorem pyStripP_ne_nil (p : Char → Bool) (l : PyStr) (c : Char)
    (hc : c ∈ l) (hpc : p c = false) : pyStripP p l ≠ [] := by
  intro h
  unfold pyStripP at h
  rw [List.rdropWhile_eq_nil_iff] at h
  have hc2 : c ∈ l.takeWhile p ++ l.dropWhile p := by
    rw [List.takeWhile_append_dropWhile]; exact hc
  rcases List.mem_append.mp hc2 with h1 | h2
  · have := List.mem_takeWhile_imp h1
    simp [hpc] at this
  · have := h c h2
    simp [hpc] at this

/-! ### C2 and C6: HTTP client -/

/-- C2 (counterexample): a 429 response whose parsed body has no "error"
field raises `APIError`, not `RateLimitError`, so the error category is not
determined by the status code alone. -/
theorem c2_status_mapping_cex :
    request_complete 429 none () = (RequestOutcome.sublimeError .apiError 429 : RequestOutcome Unit) ∧
    (RequestOutcome.sublimeError .apiError 429 : RequestOutcome Unit) ≠
      (RequestOutcome.sublimeError .rateLimit 429 : RequestOutcome Unit) := by
  decide

/-- C2 (amended): for a response with status below 400 the parsed body is
returned; for status at least 400 an error is raised, whose category is
determined by the status code (400/404 invalid request, 429 rate limit,
otherwise generic API error) whenever the parsed body carries an "error"
object with a "message"; when the body has no "error" field the error is a
generic `APIError` regardless of the status code. -/
theorem c2_status_mapping (status : Nat) (errorField : Option ErrorObj) (body : Unit) :
    (status < 400 → request_complete status errorField body = .ok body) ∧
    (400 ≤ status → errorField = none →
      request_complete status errorField body = .sublimeError .apiError status) ∧
    (400 ≤ status → ∀ m : String, errorField = some ⟨some m⟩ →
      request_complete status errorField body = .sublimeError (statusCategory status) status) := by
  refine ⟨fun h => ?_, fun h he => ?_, fun h m he => ?_⟩
  · rw [request_complete, if_neg (by omega)]
  · rw [request_complete, if_pos h, he, handle_error_response]
  · rw [request_complete, if_pos h, he]
    show handle_error_response status (some ⟨some m⟩) = RequestOutcome.sublimeError (statusCategory status) status
    rw [handle_error_response, statusCategory]
    split_ifs <;> rfl

theorem c2_status_mapping_witness :
    request_complete 404 (some ⟨some "bad"⟩) () = (RequestOutcome.sublimeError .invalidRequest 404 : RequestOutcome Unit) ∧
    request_complete 200 none () = (RequestOutcome.ok () : RequestOutcome Unit) := by
  have h1 := (c2_status_mapping 404 (some ⟨some "bad"⟩) ()).2.2 (by decide) "bad" rfl
  have h2 := (c2_status_mapping 200 none ()).1 (by decide)
  exact ⟨by rw [h1]; rfl, h2⟩

/-- C6: the request URL is the base URL joined with the version segment
"v1" and the endpoint, and the headers carry the API key under the "Key"
header. -/
theorem c6_url_and_key (base_url endpoint version api_key : String) :
    build_request_url base_url endpoint = base_url ++ "/" ++ "v1" ++ "/" ++ endpoint ∧
    ("Key", api_key) ∈ request_headers version api_key := by
  constructor
  · rfl
  · simp [request_headers]

/-! ### C5 and C9: base64 encoding of EML files -/

theorem decChar_encChar : ∀ v : Nat, v < 64 → decChar (encChar b64Alphabet v) = some v := by
  decide

theorem encChar_ne_pad : ∀ v : Nat, v < 64 → encChar b64Alphabet v ≠ '=' := by
  decide

theorem encChar_ascii : ∀ v : Nat, v < 64 → (encChar b64Alphabet v).toNat < 128 := by
  decide

theorem urlChar_eq_sub : ∀ v : Nat, v < 64 →
    encChar b64UrlAlphabet v = urlSub (encChar b64Alphabet v) := by
  decide

theorem b64decode_encode_aux :
    ∀ (n : Nat) (bs : List Nat), bs.length ≤ n → (∀ x ∈ bs, x < 256) →
      b64decode (b64encodeWith b64Alphabet bs) = some bs := by
  intro n
  induction n with
  | zero =>
    intro bs hlen _
    have : bs = [] := List.eq_nil_of_length_eq_zero (Nat.le_zero.mp hlen)
    subst this
    rfl
  | succ n ih =>
    intro bs hlen hb
    match bs with
    | [] => rfl
    | [a] =>
      have ha : a < 256 := hb a (by simp)
      have d1 := decChar_encChar (a / 4) (by omega)
      have d2 := decChar_encChar (a % 4 * 16) (by omega)
      simp [b64encodeWith, b64decode, decodeChunk, d1, d2]
      omega
    | [a, b] =>
      have ha : a < 256 := hb a (by simp)
      have hbb : b < 256 := hb b (by simp)
      have d1 := decChar_encChar (a / 4) (by omega)
      have d2 := decChar_encChar (a % 4 * 16 + b / 16) (by omega)
      have d3 := decChar_encChar (b % 16 * 4) (by omega)
      have hne3 := encChar_ne_pad (b % 16 * 4) (by omega)
      simp [b64encodeWith, b64decode, decodeChunk, d1, d2, d3, hne3]
      omega
    | a :: b :: c :: rest =>
      have ha : a < 256 := hb a (by simp)
      have hbb : b < 256 := hb b (by simp)
      have hc : c < 256 := hb c (by simp)
      have hrest : ∀ x ∈ rest, x < 256 := fun x hx => hb x (by simp [hx])
      have hlen' : rest.length ≤ n := by
        simp only [List.length_cons] at hlen
        omega
      have hIH := ih rest hlen' hrest
      have d1 := decChar_encChar (a / 4) (by omega)
      have d2 := decChar_encChar (a % 4 * 16 + b / 16) (by omega)
      have d3 := decChar_encChar (b % 16 * 4 + c / 64) (by omega)
      have d4 := decChar_encChar (c % 64) (by omega)
      have hne3 := encChar_ne_pad (b % 16 * 4 + c / 64) (by omega)
      have hne4 := encChar_ne_pad (c % 64) (by omega)
      simp [b64encodeWith, b64decode, decodeChunk, d1, d2, d3, d4, hne3, hne4, hIH]
      refine ⟨by omega, by omega, by omega⟩

theorem b64encode_ascii_aux :
    ∀ (n : Nat) (bs : List Nat), bs.length ≤ n → (∀ x ∈ bs, x < 256) →
      ∀ ch ∈ b64encodeWith b64Alphabet bs, ch.toNat < 128 := by
  intro n
  induction n with
  | zero =>
    intro bs hlen _
    have : bs = [] := List.eq_nil_of_length_eq_zero (Nat.le_zero.mp hlen)
    subst this
    simp [b64encodeWith]
  | succ n ih =>
    intro bs hlen hb
    match bs with
    | [] => simp [b64encodeWith]
    | [a] =>
      have ha : a < 256 := hb a (by simp)
      have e1 := encChar_ascii (a / 4) (by omega)
      have e2 := encChar_ascii (a % 4 * 16) (by omega)
      intro ch hch
      simp only [b64encodeWith] at hch
      rcases List.mem_cons.mp hch with h | hch
      · subst h; exact e1
      rcases List.mem_cons.mp hch with h | hch
      · subst h; exact e2
      rcases List.mem_cons.mp hch with h | hch
      · subst h; decide
      rcases List.mem_cons.mp hch with h | hch
      · subst h; decide
      simp at hch
    | [a, b] =>
      have ha : a < 256 := hb a (by simp)
      have hbb : b < 256 := hb b (by simp)
      have e1 := encChar_ascii (a / 4) (by omega)
      have e2 := encChar_ascii (a % 4 * 16 + b / 16) (by omega)
      have e3 := encChar_ascii (b % 16 * 4) (by omega)
      intro ch hch
      simp only [b64encodeWith] at hch
      rcases List.mem_cons.mp hch with h | hch
      · subst h; exact e1
      rcases List.mem_cons.mp hch with h | hch
      · subst h; exact e2
      rcases List.mem_cons.mp hch with h | hch
      · subst h; exact e3
      rcases List.mem_cons.mp hch with h | hch
      · subst h; decide
      simp at hch
    | a :: b :: c :: rest =>
      have ha : a < 256 := hb a (by simp)
      have hbb : b < 256 := hb b (by simp)
      have hc : c < 256 := hb c (by simp)
      have hrest : ∀ x ∈ rest, x < 256 := fun x hx => hb x (by simp [hx])
      have hlen' : rest.length ≤ n := by
        simp only [List.length_cons] at hlen
        omega
      have hIH := ih rest hlen' hrest
      have e1 := encChar_ascii (a / 4) (by omega)
      have e2 := encChar_ascii (a % 4 * 16 + b / 16) (by omega)
      have e3 := encChar_ascii (b % 16 * 4 + c / 64) (by omega)
      have e4 := encChar_ascii (c % 64) (by omega)
      intro ch hch
      simp only [b64encodeWith] at hch
      rcases List.mem_cons.mp hch with h | hch
      · subst h; exact e1
      rcases List.mem_cons.mp hch with h | hch
      · subst h; exact e2
      rcases List.mem_cons.mp hch with h | hch
      · subst h; exact e3
      rcases List.mem_cons.mp hch with h | hch
      · subst h; exact e4
      exact hIH ch hch

theorem urlsafe_eq_map_aux :
    ∀ (n : Nat) (bs : List Nat), bs.length ≤ n → (∀ x ∈ bs, x < 256) →
      b64encodeWith b64UrlAlphabet bs = (b64encodeWith b64Alphabet bs).map urlSub := by
  intro n
  induction n with
  | zero =>
    intro bs hlen _
    have : bs = [] := List.eq_nil_of_length_eq_zero (Nat.le_zero.mp hlen)
    subst this
    rfl
  | succ n ih =>
    intro bs hlen hb
    match bs with
    | [] => rfl
    | [a] =>
      have ha : a < 256 := hb a (by simp)
      have u1 := urlChar_eq_sub (a / 4) (by omega)
      have u2 := urlChar_eq_sub (a % 4 * 16) (by omega)
      simp [b64encodeWith, u1, u2]
      decide
    | [a, b] =>
      have ha : a < 256 := hb a (by simp)
      have hbb : b < 256 := hb b (by simp)
      have u1 := urlChar_eq_sub (a / 4) (by omega)
      have u2 := urlChar_eq_sub (a % 4 * 16 + b / 16) (by omega)
      have u3 := urlChar_eq_sub (b % 16 * 4) (by omega)
      simp [b64encodeWith, u1, u2, u3]
      decide
    | a :: b :: c :: rest =>
      have ha : a < 256 := hb a (by simp)
      have hbb : b < 256 := hb b (by simp)
      have hc : c < 256 := hb c (by simp)
      have hrest : ∀ x ∈ rest, x < 256 := fun x hx => hb x (by simp [hx])
      have hlen' : rest.length ≤ n := by
        simp only [List.length_cons] at hlen
        omega
      have hIH := ih rest hlen' hrest
      have u1 := urlChar_eq_sub (a / 4) (by omega)
      have u2 := urlChar_eq_sub (a % 4 * 16 + b / 16) (by omega)
      have u3 := urlChar_eq_sub (b % 16 * 4 + c / 64) (by omega)
      have u4 := urlChar_eq_sub (c % 64) (by omega)
      simp [b64encodeWith, u1, u2, u3, u4, hIH]

/-- C5: the EML loader returns an ASCII string which is the base64 encoding
of the parsed message's serialized (UTF-8) byte content, and decoding the
returned string yields back exactly those bytes. -/
theorem c5_eml_loader_base64 (msgBytes : List Nat) (h : ∀ b ∈ msgBytes, b < 256) :
    (∀ ch ∈ load_eml_file_handle msgBytes, ch.toNat < 128) ∧
    b64decode (load_eml_file_handle msgBytes) = some msgBytes := by
  constructor
  · exact b64encode_ascii_aux msgBytes.length msgBytes (Nat.le_refl _) h
  · exact b64decode_encode_aux msgBytes.length msgBytes (Nat.le_refl _) h

theorem c5_eml_loader_base64_witness :
    (∀ ch ∈ load_eml_file_handle [72, 105, 33], ch.toNat < 128) ∧
    b64decode (load_eml_file_handle [72, 105, 33]) = some [72, 105, 33] :=
  c5_eml_loader_base64 [72, 105, 33] (by decide)

/-- C9 (counterexample): the two EML loaders do not return the same string;
on the byte 251 the standard-alphabet loader emits a '+' where the URL-safe
loader emits a '-'. -/
theorem c9_eml_loaders_cex : load_eml [251] ≠ load_eml_file_handle [251] := by
  decide

/-- C9 (amended): helper.load_eml (URL-safe alphabet) and
util.load_eml_file_handle (standard alphabet) agree up to the alphabet
substitution that maps '+' to '-' and '/' to '_'; in particular they agree
exactly on messages whose standard encoding uses neither '+' nor '/'. -/
theorem c9_eml_loaders_related (msgBytes : List Nat) (h : ∀ b ∈ msgBytes, b < 256) :
    load_eml msgBytes = (load_eml_file_handle msgBytes).map urlSub :=
  urlsafe_eq_map_aux msgBytes.length msgBytes (Nat.le_refl _) h

theorem c9_eml_loaders_related_witness :
    load_eml [251] = (load_eml_file_handle [251]).map urlSub :=
  c9_eml_loaders_related [251] (by decide)

/-! ### C8: mbox keys are never overwritten -/

theorem concatAll_length_le (s : String) (l : List String) (h : s ∈ l) :
    s.length ≤ (concatAll l).length := by
  induction l with
  | nil => simp at h
  | cons a rest ih =>
    rcases List.mem_cons.mp h with h1 | h2
    · subst h1
      show s.length ≤ (s ++ concatAll rest).length
      rw [String.length_append]
      omega
    · have h3 := ih h2
      show s.length ≤ (a ++ concatAll rest).length
      rw [String.length_append]
      omega

theorem overflowKey_not_mem (used : List String) (subject : String) :
    overflowKey used subject ∉ used := by
  intro h
  have h1 := concatAll_length_le _ used h
  rw [overflowKey] at h1
  simp only [String.length_append] at h1
  have h2 : ("overflow)" : String).length = 9 := by decide
  omega

theorem freshKeyAux_not_mem (used : List String) (subject : String) :
    ∀ (fuel i : Nat), freshKeyAux used subject i fuel ∉ used := by
  intro fuel
  induction fuel with
  | zero =>
    intro i
    exact overflowKey_not_mem used subject
  | succ fuel ih =>
    intro i
    rw [freshKeyAux]
    split
    · exact ih (i + 1)
    · assumption

theorem freshKey_not_mem (used : List String) (subject : String) :
    freshKey used subject ∉ used :=
  freshKeyAux_not_mem used subject (used.length + 1) 0

theorem load_mboxAux_nodup (msgs : List MboxMessage) :
    ∀ acc : List (String × PyStr), ((acc.map Prod.fst).Nodup) →
      ((load_mboxAux acc msgs).map Prod.fst).Nodup := by
  induction msgs with
  | nil =>
    intro acc h
    exact h
  | cons m rest ih =>
    intro acc h
    rw [load_mboxAux]
    apply ih
    rw [List.map_append]
    rw [List.nodup_append]
    refine ⟨h, by simp, ?_⟩
    intro x hx hx2
    simp at hx2
    subst hx2
    exact freshKey_not_mem (acc.map Prod.fst) (mboxSubject m.subject) hx

/-- C8 (counterexample): a message whose literal subject collides with a
generated candidate shifts the numbering: with subjects "a (1)", "a", "a",
the first later message with the already-used subject "a" receives the key
"a (2)", not subject plus " (1)". -/
theorem c8_mbox_keys_cex :
    (load_mbox [⟨some "a (1)", []⟩, ⟨some "a", []⟩, ⟨some "a", []⟩]).map Prod.fst =
      ["a (1)", "a", "a (2)"] ∧
    ("a (2)" : String) ≠ "a" ++ " (1)" := by
  constructor
  · rfl
  · decide

/-- C8 (amended): each message's key is the first unused candidate among
its subject (or "[Empty Subject]"), subject " (1)", subject " (2)", and so
on; hence the keys of the returned map are pairwise distinct and no earlier
message's encoded content is overwritten by a later one. -/
theorem c8_mbox_keys_nodup (msgs : List MboxMessage) :
    ((load_mbox msgs).map Prod.fst).Nodup := by
  have h := load_mboxAux_nodup msgs [] (by simp)
  exact h

/-! ### C7 and C10: YAML loader -/

theorem processEntries_ok (b : Bool) (items : List YVal)
    (h : ∀ e ∈ items, yGoodEntry e = true) :
    processEntries b items = .ok (items.map yRecOf) := by
  induction items with
  | nil => rfl
  | cons e rest ih =>
    have he := h e (by simp)
    cases e
    case nullv => simp [yGoodEntry] at he
    case boolv => simp [yGoodEntry] at he
    case intv => simp [yGoodEntry] at he
    case strv => simp [yGoodEntry] at he
    case listv => simp [yGoodEntry] at he
    case mapv em =>
      simp only [yGoodEntry] at he
      have hrest := ih (fun x hx => h x (List.mem_cons_of_mem _ hx))
      simp [processEntries, safe_yaml_filter, he, hrest, yRecOf]

theorem processEntries_err (b : Bool) (items : List YVal)
    (h : ∃ e ∈ items, yGoodEntry e = false) :
    ∃ err, processEntries b items = .error err ∧
      (err = .missingSource ∨ err = .invalidRuleList ∨ err = .invalidQueryList) := by
  induction items with
  | nil =>
    obtain ⟨e, he, _⟩ := h
    simp at he
  | cons e rest ih =>
    by_cases hg : yGoodEntry e = true
    · obtain ⟨w, hw, hwbad⟩ := h
      rcases List.mem_cons.mp hw with h1 | h2
      · subst h1
        rw [hwbad] at hg
        cases hg
      · obtain ⟨err, herr, hkind⟩ := ih ⟨w, h2, hwbad⟩
        cases e
        · simp [yGoodEntry] at hg
        · simp [yGoodEntry] at hg
        · simp [yGoodEntry] at hg
        · simp [yGoodEntry] at hg
        · simp [yGoodEntry] at hg
        · rename_i em
          simp only [yGoodEntry] at hg
          refine ⟨err, ?_, hkind⟩
          simp [processEntries, safe_yaml_filter, hg, herr]
    · rw [Bool.not_eq_true] at hg
      cases e
      · cases b
        · exact ⟨.invalidQueryList, rfl, Or.inr (Or.inr rfl)⟩
        · exact ⟨.invalidRuleList, rfl, Or.inr (Or.inl rfl)⟩
      · cases b
        · exact ⟨.invalidQueryList, rfl, Or.inr (Or.inr rfl)⟩
        · exact ⟨.invalidRuleList, rfl, Or.inr (Or.inl rfl)⟩
      · cases b
        · exact ⟨.invalidQueryList, rfl, Or.inr (Or.inr rfl)⟩
        · exact ⟨.invalidRuleList, rfl, Or.inr (Or.inl rfl)⟩
      · cases b
        · exact ⟨.invalidQueryList, rfl, Or.inr (Or.inr rfl)⟩
        · exact ⟨.invalidRuleList, rfl, Or.inr (Or.inl rfl)⟩
      · cases b
        · exact ⟨.invalidQueryList, rfl, Or.inr (Or.inr rfl)⟩
        · exact ⟨.invalidRuleList, rfl, Or.inr (Or.inl rfl)⟩
      · rename_i em
        simp only [yGoodEntry] at hg
        refine ⟨.missingSource, ?_, Or.inl rfl⟩
        simp [processEntries, safe_yaml_filter, hg]

theorem runLoops_ok (rl ql : List YVal)
    (h1 : ∀ e ∈ rl, yGoodEntry e = true) (h2 : ∀ e ∈ ql, yGoodEntry e = true) :
    runLoops (.listv rl) (.listv ql) = .ok (rl.map yRecOf, ql.map yRecOf) := by
  simp [runLoops, pyIter, processEntries_ok true rl h1, processEntries_ok false ql h2]

theorem runLoops_err (rl ql : List YVal)
    (h : ∃ e ∈ rl ++ ql, yGoodEntry e = false) :
    ∃ err, runLoops (.listv rl) (.listv ql) = .error err ∧
      (err = .missingSource ∨ err = .invalidRuleList ∨ err = .invalidQueryList) := by
  by_cases hrl : ∀ e ∈ rl, yGoodEntry e = true
  · have hql : ∃ e ∈ ql, yGoodEntry e = false := by
      obtain ⟨w, hw, hb⟩ := h
      rcases List.mem_append.mp hw with hw1 | hw2
      · rw [hrl w hw1] at hb
        cases hb
      · exact ⟨w, hw2, hb⟩
    obtain ⟨err, herr, hkind⟩ := processEntries_err false ql hql
    refine ⟨err, ?_, hkind⟩
    simp [runLoops, pyIter, processEntries_ok true rl hrl, herr]
  · have hbad : ∃ e ∈ rl, yGoodEntry e = false := by
      push_neg at hrl
      obtain ⟨w, hw, hb⟩ := hrl
      exact ⟨w, hw, by simpa using hb⟩
    obtain ⟨err, herr, hkind⟩ := processEntries_err true rl hbad
    refine ⟨err, ?_, hkind⟩
    simp [runLoops, pyIter, herr]

/-- C7: when the top-level mapping lists rules and queries, every returned
record is exactly the pair of the "source" and "name" fields of the
corresponding listed mapping, in order; and `load_yml` raises a
`LoadRuleError` whenever a listed entry is not a mapping or is a mapping
without a (truthy) "source" value. -/
theorem c7_load_yml_records (ig : Bool) (m : List (String × YVal)) (rl ql : List YVal)
    (hr : yget m "rules" (.listv []) = .listv rl)
    (hq : yget m "queries" (.listv []) = .listv ql)
    (hne : rl ≠ [] ∨ ql ≠ []) :
    ((∀ e ∈ rl ++ ql, yGoodEntry e = true) →
      load_yml ig (.mapv m) = .ok (rl.map yRecOf, ql.map yRecOf)) ∧
    ((∃ e ∈ rl ++ ql, yGoodEntry e = false) →
      ∃ err, load_yml ig (.mapv m) = .error err ∧
        (err = .missingSource ∨ err = .invalidRuleList ∨ err = .invalidQueryList)) := by
  have hm : m ≠ [] := by
    intro hm0
    subst hm0
    simp [yget, ylookup] at hr hq
    rcases hne with hx | hx
    · exact hx hr
    · exact hx hq
  have hload : load_yml ig (.mapv m) = runLoops (.listv rl) (.listv ql) := by
    have hcond : (!(ytruthy (YVal.listv rl)) && !(ytruthy (YVal.listv ql))) = false := by
      rcases hne with hx | hx
      · rcases rl with _ | ⟨e, rl'⟩
        · exact absurd rfl hx
        · simp [ytruthy]
      · rcases ql with _ | ⟨e, ql'⟩
        · exact absurd rfl hx
        · simp [ytruthy]
    rcases m with _ | ⟨p, m'⟩
    · exact absurd rfl hm
    · simp [load_yml, hr, hq, hcond]
  constructor
  · intro hgood
    rw [hload]
    exact runLoops_ok rl ql
      (fun e he => hgood e (List.mem_append_left _ he))
      (fun e he => hgood e (List.mem_append_right _ he))
  · intro hbad
    rw [hload]
    exact runLoops_err rl ql hbad

theorem c7_load_yml_records_witness :
    load_yml true (.mapv [("rules",
        .listv [.mapv [("source", .strv "s"), ("name", .strv "n")]])]) =
      .ok ([⟨.strv "s", .strv "n"⟩], []) := by
  have h := (c7_load_yml_records true
      [("rules", .listv [.mapv [("source", .strv "s"), ("name", .strv "n")]])]
      [.mapv [("source", .strv "s"), ("name", .strv "n")]] [] rfl rfl
      (Or.inl (by simp))).1
      (by
        intro e he
        simp only [List.append_nil, List.mem_singleton] at he
        subst he
        rfl)
  rw [h]
  rfl

theorem ylookup_append_other (m : List (String × YVal)) (k k' : String) (v : YVal)
    (h : k' ≠ k) : ylookup (m ++ [(k, v)]) k' = ylookup m k' := by
  unfold ylookup
  rw [List.find?_append]
  cases hf : m.find? (fun p => decide (p.1 = k')) with
  | some p => rfl
  | none =>
    have h2 : (k = k') = False := eq_false (fun he => h he.symm)
    simp [List.find?, h2]

theorem ylookup_append_self (m : List (String × YVal)) (k : String) (v : YVal)
    (h : ylookup m k = none) : ylookup (m ++ [(k, v)]) k = some v := by
  unfold ylookup at h ⊢
  rw [List.find?_append]
  cases hf : m.find? (fun p => decide (p.1 = k)) with
  | some p =>
    rw [hf] at h
    simp at h
  | none =>
    simp [List.find?]

/-- C10: when the top-level mapping has neither a "rules" nor a "queries"
key, the whole mapping is handled as a single record: an absent "type" is
defaulted to "query"; a "type" of "rule" makes the mapping the single
returned rule; a "type" of "query" (including the defaulted case) makes it
the single returned query; any other "type" value yields the invalid-type
`LoadRuleError`, or empty rule and query lists when `ignore_errors` is set.
So the mapping is returned as a rule exactly when its "type" is "rule". -/
theorem c10_load_yml_single (ig : Bool) (m : List (String × YVal))
    (hr : ylookup m "rules" = none) (hq : ylookup m "queries" = none) (hm : m ≠ []) :
    ((ylookup m "type").isNone → yget (typeDefaulted m) "type" .nullv = .strv "query") ∧
    (yIsStr (yget (typeDefaulted m) "type" .nullv) "rule" = false →
      yIsStr (yget (typeDefaulted m) "type" .nullv) "query" = false →
      load_yml ig (.mapv m) = if ig then .ok ([], []) else .error .invalidType) ∧
    (yIsStr (yget (typeDefaulted m) "type" .nullv) "rule" = true →
      ytruthy (yget m "source" .nullv) = true →
      load_yml ig (.mapv m) = .ok ([⟨yget m "source" .nullv, yget m "name" .nullv⟩], [])) ∧
    (yIsStr (yget (typeDefaulted m) "type" .nullv) "query" = true →
      ytruthy (yget m "source" .nullv) = true →
      load_yml ig (.mapv m) = .ok ([], [⟨yget m "source" .nullv, yget m "name" .nullv⟩])) := by
  have hrg : yget m "rules" (.listv []) = .listv [] := by
    unfold yget
    rw [hr]
  have hqg : yget m "queries" (.listv []) = .listv [] := by
    unfold yget
    rw [hq]
  have hsrc : yget (typeDefaulted m) "source" .nullv = yget m "source" .nullv := by
    unfold typeDefaulted
    split
    · unfold yget
      rw [ylookup_append_other m "type" "source" (.strv "query") (by decide)]
    · rfl
  have hname : yget (typeDefaulted m) "name" .nullv = yget m "name" .nullv := by
    unfold typeDefaulted
    split
    · unfold yget
      rw [ylookup_append_other m "type" "name" (.strv "query") (by decide)]
    · rfl
  have hload : load_yml ig (.mapv m) = singleRecord ig m := by
    rcases m with _ | ⟨p, m'⟩
    · exact absurd rfl hm
    · simp [load_yml, hrg, hqg, ytruthy]
  refine ⟨?_, ?_, ?_, ?_⟩
  · intro h
    unfold typeDefaulted
    rw [if_pos h]
    unfold yget
    rw [ylookup_append_self m "type" (.strv "query") (Option.isNone_iff_eq_none.mp h)]
  · intro h1 h2
    rw [hload]
    simp [singleRecord, h1, h2]
  · intro ht hs
    rw [hload]
    have hgood : ∀ e ∈ [YVal.mapv (typeDefaulted m)], yGoodEntry e = true := by
      intro e he
      simp only [List.mem_singleton] at he
      subst he
      simp [yGoodEntry, hsrc, hs]
    have hrun := runLoops_ok [YVal.mapv (typeDefaulted m)] [] hgood (by simp)
    simp only [singleRecord, ht, Bool.true_or, Bool.not_true, Bool.false_eq_true, if_false,
      if_true, hrg, hqg]
    simp only [List.nil_append] at *
    rw [hrun]
    simp [yRecOf, hsrc, hname]
  · intro ht hs
    rw [hload]
    have htr : yIsStr (yget (typeDefaulted m) "type" .nullv) "rule" = false := by
      cases hT : yget (typeDefaulted m) "type" .nullv with
      | nullv => rw [hT] at ht; simp [yIsStr] at ht
      | boolv b2 => rw [hT] at ht; simp [yIsStr] at ht
      | intv n2 => rw [hT] at ht; simp [yIsStr] at ht
      | listv l2 => rw [hT] at ht; simp [yIsStr] at ht
      | mapv m2 => rw [hT] at ht; simp [yIsStr] at ht
      | strv s2 =>
        rw [hT] at ht
        simp only [yIsStr, decide_eq_true_eq] at ht
        subst ht
        rfl
    have hgood : ∀ e ∈ [YVal.mapv (typeDefaulted m)], yGoodEntry e = true := by
      intro e he
      simp only [List.mem_singleton] at he
      subst he
      simp [yGoodEntry, hsrc, hs]
    have hrun := runLoops_ok [] [YVal.mapv (typeDefaulted m)] (by simp) hgood
    simp only [singleRecord, ht, htr, Bool.false_or, Bool.not_true, Bool.false_eq_true, if_false,
      hrg, hqg]
    simp only [List.nil_append] at *
    rw [hrun]
    simp [yRecOf, hsrc, hname]

theorem c10_load_yml_single_witness :
    load_yml false (.mapv [("type", .strv "rule"), ("source", .strv "x")]) =
      .ok ([⟨.strv "x", .nullv⟩], []) := by
  have h := (c10_load_yml_single false [("type", .strv "rule"), ("source", .strv "x")]
      rfl rfl (by simp)).2.2.1 rfl rfl
  rw [h]
  rfl

/-! ### C1, C3 and C4: the PQL scanner -/

theorem isEmpty_false_iff {α : Type} (l : List α) : l.isEmpty = false ↔ l ≠ [] := by
  cases l <;> simp

theorem rawJoin_nil : rawJoin [] = [] := rfl

theorem rawJoin_cons (x : PyStr) (xs : List PyStr) :
    rawJoin (x :: xs) = ' ' :: (x ++ ' ' :: rawJoin xs) := by
  simp [rawJoin]

theorem rawJoin_isEmpty (cur : List PyStr) : (rawJoin cur).isEmpty = cur.isEmpty := by
  cases cur with
  | nil => rfl
  | cons x xs => rw [rawJoin_cons]; rfl

theorem rawJoin_append_single (cur : List PyStr) (l : PyStr) :
    rawJoin (cur ++ [l]) = rawJoin cur ++ ([' '] ++ l ++ [' ']) := by
  simp [rawJoin]

theorem fullStrip_stripped (raw : PyStr) : pyStrip (fullStrip raw) = fullStrip raw :=
  pyStripP_idem isPyWs (pyStripP (fun c => c = '\n') raw)

theorem stripSemi_stripped (l : PyStr) : pyStrip (stripSemi l) = stripSemi l :=
  pyStripP_idem isPyWs (pyStripP (fun c => c = ';') l)

theorem joinRun_isEmpty_false (cur : List PyStr) (hcur : cur ≠ []) (hgood : goodRun cur) :
    (joinRun cur).isEmpty = false := by
  rcases cur with _ | ⟨x, rest⟩
  · exact absurd rfl hcur
  obtain ⟨hx1, hx2⟩ := hgood x (by simp)
  rcases x with _ | ⟨b, t⟩
  · simp at hx1
  have hb : isPyWs b = false := pyStripP_head isPyWs (b :: t) b t hx2
  rw [isEmpty_false_iff]
  show pyStripP isPyWs (rawJoin ((b :: t) :: rest)) ≠ []
  apply pyStripP_ne_nil isPyWs (rawJoin ((b :: t) :: rest)) b ?_ hb
  rw [rawJoin_cons]
  simp

theorem flushRecord_ok (q : Bool) (st : ScanState) (cur : List PyStr)
    (hstr : st.detection_str = rawJoin cur) (hcur : cur ≠ []) (hgood : goodRun cur)
    (hnm : pyStrip st.detection_name = st.detection_name) :
    flushRecord q st = .ok (st.detections ++ [mkRec q (cur, st.detection_name)]) := by
  have hje : (joinRun cur).isEmpty = false := joinRun_isEmpty_false cur hcur hgood
  have hs : pyStripOrNone (some st.detection_str) = some (joinRun cur) := by
    rw [hstr]
    simp only [pyStripOrNone]
    rw [if_neg (by rw [rawJoin_isEmpty]; simp [hcur])]
    rfl
  have hn : pyStripOrNone (some st.detection_name) = nameOpt st.detection_name := by
    simp only [pyStripOrNone, nameOpt]
    by_cases h : st.detection_name.isEmpty = true
    · rw [if_pos h, if_pos h]
    · rw [if_neg h, if_neg h, hnm]
  cases q with
  | true =>
    rw [flushRecord, if_pos rfl]
    rw [create_query, hs, hn]
    rfl
  | false =>
    rw [flushRecord, if_neg (by simp)]
    rw [create_simple_detection, hs]
    rw [if_neg (by simp [optTruthy, hje])]
    rw [hn]
    rfl

theorem scanLines_spec (q ig : Bool) :
    ∀ (ls : List PyStr) (st st2 : ScanState) (cur : List PyStr),
      scanLines q ig st ls = .ok st2 →
      st.detection_str = rawJoin cur →
      goodRun cur →
      pyStrip st.detection_name = st.detection_name →
      st2.detections = st.detections ++
          ((blocksAcc cur st.detection_name (processedLines ls)).1).map (mkRec q) ∧
      st2.detection_str = rawJoin (blocksAcc cur st.detection_name (processedLines ls)).2.1 ∧
      goodRun (blocksAcc cur st.detection_name (processedLines ls)).2.1 ∧
      st2.detection_name = (blocksAcc cur st.detection_name (processedLines ls)).2.2 ∧
      pyStrip (blocksAcc cur st.detection_name (processedLines ls)).2.2 =
        (blocksAcc cur st.detection_name (processedLines ls)).2.2 := by
  intro ls
  induction ls with
  | nil =>
    intro st st2 cur h hstr hgood hnm
    have hst : st = st2 := by
      simpa [scanLines] using h
    subst hst
    refine ⟨?_, ?_, ?_, ?_, ?_⟩
    · simp [processedLines, blocksAcc]
    · simpa [processedLines, blocksAcc] using hstr
    · simpa [processedLines, blocksAcc] using hgood
    · simp [processedLines, blocksAcc]
    · simpa [processedLines, blocksAcc] using hnm
  | cons raw rest ih =>
    intro st st2 cur h hstr hgood hnm
    simp only [scanLines] at h
    cases hstep : scanStep q ig st raw with
    | error e =>
      rw [hstep] at h
      simp at h
    | ok st1 =>
      rw [hstep] at h
      replace h : scanLines q ig st1 rest = .ok st2 := h
      by_cases hc : startsWithCh '#' (fullStrip raw) = true
      · -- comment line: flag set, everything else unchanged, line filtered out
        unfold scanStep at hstep
        rw [if_pos hc] at hstep
        injection hstep with h1
        subst h1
        have hpl : processedLines (raw :: rest) = processedLines rest := by
          simp [processedLines, hc]
        rw [hpl]
        exact ih ⟨st.detections, st.detection_str, st.detection_name, true⟩ st2 cur h hstr hgood hnm
      · by_cases hsemi : startsWithCh ';' (fullStrip raw) = true
        · -- name line: detection_name updated
          unfold scanStep at hstep
          rw [if_neg hc, if_pos hsemi] at hstep
          injection hstep with h1
          subst h1
          have hpl : processedLines (raw :: rest) = fullStrip raw :: processedLines rest := by
            simp [processedLines, hc]
          rw [hpl]
          have hred : blocksAcc cur st.detection_name (fullStrip raw :: processedLines rest) =
              blocksAcc cur (stripSemi (fullStrip raw)) (processedLines rest) := by
            simp only [blocksAcc]
            rw [if_pos hsemi]
          rw [hred]
          exact ih ⟨st.detections, st.detection_str, stripSemi (fullStrip raw), st.comment_exists⟩
            st2 cur h hstr hgood (stripSemi_stripped (fullStrip raw))
        · by_cases hblank : (fullStrip raw).isEmpty = true
          · -- blank line
            unfold scanStep at hstep
            rw [if_neg hc, if_neg hsemi, if_pos hblank] at hstep
            have hpl : processedLines (raw :: rest) = fullStrip raw :: processedLines rest := by
              simp [processedLines, hc]
            have hl0 : fullStrip raw = [] := by
              rcases hfs : fullStrip raw with _ | ⟨d, dt⟩
              · rfl
              · rw [hfs] at hblank; simp at hblank
            by_cases hcur0 : cur = []
            · -- nothing pending
              subst hcur0
              have hstr0 : st.detection_str = [] := by rw [hstr]; rfl
              rw [hstr0] at hstep
              simp only [List.isEmpty_nil, Bool.not_true, Bool.false_eq_true, if_false] at hstep
              have hred : blocksAcc [] st.detection_name (processedLines (raw :: rest)) =
                  blocksAcc [] [] (processedLines rest) := by
                rw [hpl, hl0]
                simp [blocksAcc, startsWithCh]
              rw [hred]
              by_cases hnm0 : st.detection_name.isEmpty = true
              · rw [if_neg (by simp [hnm0])] at hstep
                injection hstep with h1
                subst h1
                exact ih ⟨st.detections, [], [], false⟩ st2 [] h rfl
                  (by intro x hx; simp at hx) rfl
              · have hnmne : st.detection_name.isEmpty = false := by
                  simpa using hnm0
                rw [if_pos (by simp [hnmne])] at hstep
                cases ig with
                | false => simp at hstep
                | true =>
                  rw [if_pos rfl] at hstep
                  injection hstep with h1
                  subst h1
                  exact ih ⟨st.detections, [], [], false⟩ st2 [] h rfl
                    (by intro x hx; simp at hx) rfl
            · -- pending run flushed
              have hstrne : st.detection_str.isEmpty = false := by
                rw [hstr, rawJoin_isEmpty]
                exact (isEmpty_false_iff cur).mpr hcur0
              rw [if_pos (by simp [hstrne])] at hstep
              rw [flushRecord_ok q st cur hstr hcur0 hgood hnm] at hstep
              replace hstep : Except.ok
                  (⟨st.detections ++ [mkRec q (cur, st.detection_name)], [], [], false⟩ :
                    ScanState) = .ok st1 := hstep
              injection hstep with h1
              subst h1
              have hred : blocksAcc cur st.detection_name (processedLines (raw :: rest)) =
                  ((cur, st.detection_name) :: (blocksAcc [] [] (processedLines rest)).1,
                    (blocksAcc [] [] (processedLines rest)).2) := by
                rw [hpl, hl0]
                simp [blocksAcc, startsWithCh, hcur0]
              rw [hred]
              obtain ⟨r1, r2, r3, r4, r5⟩ :=
                ih ⟨st.detections ++ [mkRec q (cur, st.detection_name)], [], [], false⟩ st2 [] h
                  rfl (by intro x hx; simp at hx) rfl
              refine ⟨?_, ?_, ?_, ?_, ?_⟩
              · rw [r1]
                simp
              · exact r2
              · exact r3
              · exact r4
              · exact r5
          · -- content line accumulated
            unfold scanStep at hstep
            rw [if_neg hc, if_neg hsemi, if_neg hblank] at hstep
            injection hstep with h1
            subst h1
            have hpl : processedLines (raw :: rest) = fullStrip raw :: processedLines rest := by
              simp [processedLines, hc]
            rw [hpl]
            have hred : blocksAcc cur st.detection_name (fullStrip raw :: processedLines rest) =
                blocksAcc (cur ++ [fullStrip raw]) st.detection_name (processedLines rest) := by
              simp only [blocksAcc]
              rw [if_neg hsemi, if_neg hblank]
            rw [hred]
            have hstr2 : st.detection_str ++ [' '] ++ fullStrip raw ++ [' '] =
                rawJoin (cur ++ [fullStrip raw]) := by
              rw [rawJoin_append_single, hstr]
              simp [List.append_assoc]
            have hgood2 : goodRun (cur ++ [fullStrip raw]) := by
              intro x hx
              rcases List.mem_append.mp hx with h1 | h2
              · exact hgood x h1
              · simp only [List.mem_singleton] at h2
                subst h2
                exact ⟨by simpa using hblank, fullStrip_stripped raw⟩
            exact ih ⟨st.detections, st.detection_str ++ [' '] ++ fullStrip raw ++ [' '],
              st.detection_name, st.comment_exists⟩ st2 (cur ++ [fullStrip raw]) h hstr2 hgood2 hnm

theorem finalCheck_ok (ig : Bool) (st : ScanState) (ds : List DetectionRec)
    (h : finalCheck ig st = .ok ds) : ds = st.detections := by
  unfold finalCheck at h
  split at h
  · split at h
    · split at h
      · injection h with h1
        exact h1.symm
      · simp at h
    · split at h
      · injection h with h1
        exact h1.symm
      · simp at h
  · injection h with h1
    exact h1.symm

theorem load_detections_spec (q ig : Bool) (lines : List PyStr) (ds : List DetectionRec)
    (h : load_detections q ig lines = .ok ds) :
    ds = (blocksFullFrom [] [] (processedLines lines)).map (mkRec q) := by
  unfold load_detections at h
  cases hscan : scanLines q ig ⟨[], [], [], false⟩ lines with
  | error e =>
    rw [hscan] at h
    simp at h
  | ok st =>
    rw [hscan] at h
    replace h : (match eofFlush q ig st with
        | Except.error e => Except.error e
        | Except.ok st2 => finalCheck ig st2) = Except.ok ds := h
    obtain ⟨r1, r2, r3, r4, r5⟩ :=
      scanLines_spec q ig lines ⟨[], [], [], false⟩ st [] hscan rfl
        (by intro x hx; simp at hx) rfl
    cases heof : eofFlush q ig st with
    | error e =>
      rw [heof] at h
      simp at h
    | ok st3 =>
      rw [heof] at h
      replace h : finalCheck ig st3 = Except.ok ds := h
      have hds : ds = st3.detections := finalCheck_ok ig st3 ds h
      by_cases hp : (blocksAcc [] [] (processedLines lines)).2.1.isEmpty = true
      · have hstre : st.detection_str.isEmpty = true := by
          rw [r2, rawJoin_isEmpty]
          exact hp
        unfold eofFlush at heof
        rw [if_neg (by simp [hstre])] at heof
        have hdet3 : st3.detections = st.detections := by
          by_cases hn0 : st.detection_name.isEmpty = true
          · rw [if_neg (by simp [hn0])] at heof
            injection heof with h1
            rw [← h1]
          · have hnmne : st.detection_name.isEmpty = false := by simpa using hn0
            rw [if_pos (by simp [hnmne])] at heof
            cases ig with
            | false => simp at heof
            | true =>
              rw [if_pos rfl] at heof
              injection heof with h1
              rw [← h1]
        rw [hds, hdet3, r1]
        unfold blocksFullFrom
        rw [if_pos hp]
        simp
      · have hpne : (blocksAcc [] [] (processedLines lines)).2.1 ≠ [] := by
          rw [← isEmpty_false_iff]
          simpa using hp
        have hstre : st.detection_str.isEmpty = false := by
          rw [r2, rawJoin_isEmpty]
          simpa using hp
        unfold eofFlush at heof
        rw [if_pos (by simp [hstre])] at heof
        have hnm2 : pyStrip st.detection_name = st.detection_name := by
          rw [r4]
          exact r5
        rw [flushRecord_ok q st (blocksAcc [] [] (processedLines lines)).2.1 r2 hpne r3 hnm2]
          at heof
        replace heof : Except.ok (⟨st.detections ++
            [mkRec q ((blocksAcc [] [] (processedLines lines)).2.1, st.detection_name)],
            st.detection_str, st.detection_name, st.comment_exists⟩ : ScanState) = .ok st3 := heof
        injection heof with h1
        subst h1
        replace hds : ds = st.detections ++
            [mkRec q ((blocksAcc [] [] (processedLines lines)).2.1, st.detection_name)] := hds
        rw [hds, r1, r4]
        unfold blocksFullFrom
        rw [if_neg hp]
        simp

theorem splitBlank_shape (ls : List PyStr) : ∃ b bs, splitBlank ls = b :: bs := by
  cases ls with
  | nil => exact ⟨[], [], rfl⟩
  | cons l ls2 =>
    by_cases h : l.isEmpty = true
    · exact ⟨[], splitBlank ls2, by simp [splitBlank, h]⟩
    · cases hsp : splitBlank ls2 with
      | nil => exact ⟨[l], [], by simp [splitBlank, h, hsp]⟩
      | cons r rs => exact ⟨l :: r, rs, by simp [splitBlank, h, hsp]⟩

theorem blocksFullFrom_spec :
    ∀ (ls : List PyStr) (cur : List PyStr) (nm : PyStr) (b : List PyStr)
      (bs : List (List PyStr)),
      splitBlank ls = b :: bs →
      blocksFullFrom cur nm ls =
        ((cur ++ blockContent b, blockNameFrom nm b) :: bs.map blockPair).filter
          (fun p => !p.1.isEmpty) := by
  intro ls
  induction ls with
  | nil =>
    intro cur nm b bs hsb
    have hsb2 : ([[]] : List (List PyStr)) = b :: bs := hsb
    injection hsb2 with h1 h2
    subst h1
    subst h2
    by_cases hc : cur.isEmpty = true <;>
      simp [blocksFullFrom, blocksAcc, blockContent, blockNameFrom, List.filter, hc]
  | cons l ls2 ih =>
    intro cur nm b bs hsb
    by_cases hsemiL : startsWithCh ';' l = true
    · have hlne : l.isEmpty = false := by
        cases l
        · simp [startsWithCh] at hsemiL
        · rfl
      obtain ⟨r, rs, hsp⟩ := splitBlank_shape ls2
      have hsb2 : splitBlank (l :: ls2) = (l :: r) :: rs := by
        simp [splitBlank, hlne, hsp]
      rw [hsb] at hsb2
      injection hsb2 with h1 h2
      subst h1
      subst h2
      have hstep : blocksFullFrom cur nm (l :: ls2) = blocksFullFrom cur (stripSemi l) ls2 := by
        simp [blocksFullFrom, blocksAcc, hsemiL]
      rw [hstep, ih cur (stripSemi l) r bs hsp]
      simp [blockContent, blockNameFrom, hsemiL]
    · by_cases hbl : l.isEmpty = true
      · have hl0 : l = [] := by
          cases l
          · rfl
          · simp at hbl
        subst hl0
        obtain ⟨r, rs, hsp⟩ := splitBlank_shape ls2
        have hsb2 : splitBlank ([] :: ls2) = [] :: splitBlank ls2 := by
          simp [splitBlank]
        have hsb3 : ([] : List PyStr) :: splitBlank ls2 = b :: bs := by
          rw [← hsb2, hsb]
        injection hsb3 with h1 h2
        subst h1
        subst h2
        by_cases hcur : cur.isEmpty = true
        · have hcur0 : cur = [] := by
            cases cur
            · rfl
            · simp at hcur
          subst hcur0
          have hstep : blocksFullFrom [] nm ([] :: ls2) = blocksFullFrom [] [] ls2 := by
            simp [blocksFullFrom, blocksAcc, startsWithCh]
          rw [hstep, ih [] [] r rs hsp, hsp]
          simp [blockContent, blockNameFrom, blockPair, List.filter]
        · have hstep : blocksFullFrom cur nm ([] :: ls2) =
              (cur, nm) :: blocksFullFrom [] [] ls2 := by
            simp [blocksFullFrom, blocksAcc, startsWithCh, hcur]
          rw [hstep, ih [] [] r rs hsp, hsp]
          simp [blockContent, blockNameFrom, blockPair, List.filter, hcur]
      · have hlne : l.isEmpty = false := by simpa using hbl
        obtain ⟨r, rs, hsp⟩ := splitBlank_shape ls2
        have hsb2 : splitBlank (l :: ls2) = (l :: r) :: rs := by
          simp [splitBlank, hlne, hsp]
        rw [hsb] at hsb2
        injection hsb2 with h1 h2
        subst h1
        subst h2
        have hstep : blocksFullFrom cur nm (l :: ls2) =
            blocksFullFrom (cur ++ [l]) nm ls2 := by
          simp [blocksFullFrom, blocksAcc, hsemiL, hbl]
        rw [hstep, ih (cur ++ [l]) nm r bs hsp]
        simp [blockContent, blockNameFrom, hsemiL, List.append_assoc]

theorem blocksFull_eq_blocksOf (lines : List PyStr) :
    blocksFullFrom [] [] (processedLines lines) = blocksOf lines := by
  obtain ⟨b, bs, hsb⟩ := splitBlank_shape (processedLines lines)
  rw [blocksFullFrom_spec (processedLines lines) [] [] b bs hsb]
  unfold blocksOf
  rw [hsb]
  simp [blockPair]

theorem splitBlank_filter (p : PyStr → Bool) (hp : p [] = true) :
    ∀ ls : List PyStr, splitBlank (ls.filter p) = (splitBlank ls).map (fun b => b.filter p) := by
  intro ls
  induction ls with
  | nil => rfl
  | cons l ls2 ih =>
    by_cases hbl : l.isEmpty = true
    · have hl0 : l = [] := by
        cases l
        · rfl
        · simp at hbl
      subst hl0
      simp [List.filter_cons, hp, splitBlank, ih]
    · by_cases hkeep : p l = true
      · obtain ⟨r, rs, hsp⟩ := splitBlank_shape ls2
        have hmap : splitBlank (ls2.filter p) = (r.filter p) :: rs.map (fun b => b.filter p) := by
          rw [ih, hsp]
          rfl
        simp [List.filter_cons, hkeep, splitBlank, hbl, hmap, hsp]
      · obtain ⟨r, rs, hsp⟩ := splitBlank_shape ls2
        simp [List.filter_cons, hkeep, splitBlank, hbl, ih, hsp]

theorem recSrc_mkRec (q : Bool) (p : List PyStr × PyStr) :
    recSrc (mkRec q p) = some (joinRun p.1) := by
  cases q <;> rfl

theorem recName_mkRec (q : Bool) (p : List PyStr × PyStr) :
    recName (mkRec q p) = nameOpt p.2 := by
  cases q <;> rfl

/-- C1: a successful `load_detections` returns one record per maximal run
of non-comment, non-name lines separated by blank lines, in file order, and
each record's source text is exactly that run's lines joined in order,
whitespace-normalised; a final run not terminated by a blank line also
yields its record. -/
theorem c1_records_are_runs (q ig : Bool) (lines : List PyStr) (ds : List DetectionRec)
    (h : load_detections q ig lines = .ok ds) :
    ds.map recSrc = (runsOf lines).map (fun r => some (joinRun r)) := by
  rw [load_detections_spec q ig lines ds h, blocksFull_eq_blocksOf, List.map_map]
  have hfst : (blocksOf lines).map Prod.fst = runsOf lines := by
    unfold blocksOf runsOf contentLines
    have h1 : ∀ (L : List (List PyStr × PyStr)),
        (L.filter (fun pp => !pp.1.isEmpty)).map Prod.fst =
          (L.map Prod.fst).filter (fun x => !x.isEmpty) := by
      intro L
      induction L with
      | nil => rfl
      | cons a L2 ihL =>
        by_cases ha : a.1.isEmpty = true <;> simp [List.filter_cons, ha, ihL]
    rw [h1, List.map_map]
    have h2 : (Prod.fst ∘ blockPair) = blockContent := rfl
    rw [h2]
    have h3 : blockContent = fun b => b.filter (fun l => !(startsWithCh ';' l)) := rfl
    rw [h3, ← splitBlank_filter (fun l => !(startsWithCh ';' l)) rfl (processedLines lines)]
  have hcomp : recSrc ∘ mkRec q = fun pp => some (joinRun pp.1) :=
    funext fun pp => recSrc_mkRec q pp
  rw [hcomp, ← hfst, List.map_map]
  rfl

theorem c1_records_are_runs_witness :
    ([DetectionRec.rule ⟨some ['a', ' ', ' ', 'b'], none, none⟩,
      DetectionRec.rule ⟨some ['c'], none, none⟩].map recSrc) =
      (runsOf [['a'], ['b'], [], ['c']]).map (fun r => some (joinRun r)) :=
  c1_records_are_runs false false [['a'], ['b'], [], ['c']]
    [DetectionRec.rule ⟨some ['a', ' ', ' ', 'b'], none, none⟩,
      DetectionRec.rule ⟨some ['c'], none, none⟩] (by rfl)

/-- C4 (counterexample): the name line "; ;" strips to the empty string, so
the record of its block gets a `None` name even though the block contains a
name line; the claim predicts the empty-string name instead. -/
theorem c4_name_line_cex :
    load_detections false false [[';', ' ', ';'], ['x']] =
      .ok [.rule ⟨some ['x'], none, none⟩] ∧
    stripSemi (fullStrip [';', ' ', ';']) = [] ∧
    (none : Option PyStr) ≠ some ([] : PyStr) := by
  refine ⟨?_, ?_, by simp⟩
  · rfl
  · rfl

/-- C4 (amended): a record's name is the last name line of its block,
stripped of semicolons and surrounding whitespace, when that is nonempty,
and `None` when the block has no name line or its last name line strips to
the empty string. -/
theorem c4_record_names (q ig : Bool) (lines : List PyStr) (ds : List DetectionRec)
    (h : load_detections q ig lines = .ok ds) :
    ds.map recName = (blocksOf lines).map (fun p => nameOpt p.2) := by
  rw [load_detections_spec q ig lines ds h, blocksFull_eq_blocksOf, List.map_map]
  have hcomp : recName ∘ mkRec q = fun pp => nameOpt pp.2 :=
    funext fun pp => recName_mkRec q pp
  rw [hcomp]

theorem c4_record_names_witness :
    ([DetectionRec.rule ⟨some ['x'], some ['n'], none⟩].map recName) =
      (blocksOf [[';', ' ', 'n'], ['x']]).map (fun p => nameOpt p.2) :=
  c4_record_names false false [[';', ' ', 'n'], ['x']]
    [DetectionRec.rule ⟨some ['x'], some ['n'], none⟩] (by rfl)

theorem flushRecord_rel (q : Bool) (st t : ScanState) (hrel : relState st t) :
    flushRecord q st = flushRecord q t := by
  obtain ⟨h1, h2, h3⟩ := hrel
  unfold flushRecord
  rw [h1, h2, h3]

theorem scanLines_filter_sim (q ig : Bool) :
    ∀ (ls : List PyStr) (st t st2 : ScanState),
      scanLines q ig st ls = .ok st2 → relState st t →
      ∃ t2, scanLines q ig t (ls.filter (fun l => !(startsWithCh '#' (fullStrip l)))) = .ok t2 ∧
        relState st2 t2 := by
  intro ls
  induction ls with
  | nil =>
    intro st t st2 h hrel
    have hst : st = st2 := by simpa [scanLines] using h
    subst hst
    exact ⟨t, rfl, hrel⟩
  | cons raw rest ih =>
    intro st t st2 h hrel
    obtain ⟨hd, hs, hn⟩ := hrel
    simp only [scanLines] at h
    cases hstep : scanStep q ig st raw with
    | error e =>
      rw [hstep] at h
      simp at h
    | ok st1 =>
      rw [hstep] at h
      replace h : scanLines q ig st1 rest = .ok st2 := h
      by_cases hc : startsWithCh '#' (fullStrip raw) = true
      · unfold scanStep at hstep
        rw [if_pos hc] at hstep
        injection hstep with h1
        subst h1
        have hfl : (raw :: rest).filter (fun l => !(startsWithCh '#' (fullStrip l))) =
            rest.filter (fun l => !(startsWithCh '#' (fullStrip l))) := by
          simp [List.filter_cons, hc]
        rw [hfl]
        exact ih ⟨st.detections, st.detection_str, st.detection_name, true⟩ t st2 h ⟨hd, hs, hn⟩
      · have hfl : (raw :: rest).filter (fun l => !(startsWithCh '#' (fullStrip l))) =
            raw :: rest.filter (fun l => !(startsWithCh '#' (fullStrip l))) := by
          simp [List.filter_cons, hc]
        rw [hfl]
        by_cases hsemi : startsWithCh ';' (fullStrip raw) = true
        · unfold scanStep at hstep
          rw [if_neg hc, if_pos hsemi] at hstep
          injection hstep with h1
          subst h1
          have htstep : scanStep q ig t raw =
              .ok ⟨t.detections, t.detection_str, stripSemi (fullStrip raw),
                t.comment_exists⟩ := by
            unfold scanStep
            rw [if_neg hc, if_pos hsemi]
          obtain ⟨t2, ht2, hrel2⟩ := ih
            ⟨st.detections, st.detection_str, stripSemi (fullStrip raw), st.comment_exists⟩
            ⟨t.detections, t.detection_str, stripSemi (fullStrip raw), t.comment_exists⟩
            st2 h ⟨hd, hs, rfl⟩
          refine ⟨t2, ?_, hrel2⟩
          simp only [scanLines]
          rw [htstep]
          exact ht2
        · by_cases hblank : (fullStrip raw).isEmpty = true
          · unfold scanStep at hstep
            rw [if_neg hc, if_neg hsemi, if_pos hblank] at hstep
            by_cases hse : st.detection_str.isEmpty = true
            · rw [if_neg (by simp [hse])] at hstep
              by_cases hne : st.detection_name.isEmpty = true
              · rw [if_neg (by simp [hne])] at hstep
                injection hstep with h1
                subst h1
                have htstep : scanStep q ig t raw = .ok ⟨t.detections, [], [], false⟩ := by
                  unfold scanStep
                  rw [if_neg hc, if_neg hsemi, if_pos hblank]
                  rw [if_neg (by simp [← hs, hse]), if_neg (by simp [← hn, hne])]
                obtain ⟨t2, ht2, hrel2⟩ := ih ⟨st.detections, [], [], false⟩
                  ⟨t.detections, [], [], false⟩ st2 h ⟨hd, rfl, rfl⟩
                refine ⟨t2, ?_, hrel2⟩
                simp only [scanLines]
                rw [htstep]
                exact ht2
              · have hnef : st.detection_name.isEmpty = false := by simpa using hne
                rw [if_pos (by simp [hnef])] at hstep
                cases ig with
                | false => simp at hstep
                | true =>
                  rw [if_pos rfl] at hstep
                  injection hstep with h1
                  subst h1
                  have htstep : scanStep q true t raw = .ok ⟨t.detections, [], [], false⟩ := by
                    unfold scanStep
                    rw [if_neg hc, if_neg hsemi, if_pos hblank]
                    rw [if_neg (by simp [← hs, hse]), if_pos (by simp [← hn, hnef]),
                      if_pos rfl]
                  obtain ⟨t2, ht2, hrel2⟩ := ih ⟨st.detections, [], [], false⟩
                    ⟨t.detections, [], [], false⟩ st2 h ⟨hd, rfl, rfl⟩
                  refine ⟨t2, ?_, hrel2⟩
                  simp only [scanLines]
                  rw [htstep]
                  exact ht2
            · have hsef : st.detection_str.isEmpty = false := by simpa using hse
              rw [if_pos (by simp [hsef])] at hstep
              cases hflush : flushRecord q st with
              | error e =>
                rw [hflush] at hstep
                simp at hstep
              | ok dsf =>
                rw [hflush] at hstep
                replace hstep : Except.ok (⟨dsf, [], [], false⟩ : ScanState) = .ok st1 := hstep
                injection hstep with h1
                subst h1
                have htstep : scanStep q ig t raw = .ok ⟨dsf, [], [], false⟩ := by
                  unfold scanStep
                  rw [if_neg hc, if_neg hsemi, if_pos hblank]
                  rw [if_pos (by simp [← hs, hsef])]
                  rw [← flushRecord_rel q st t ⟨hd, hs, hn⟩, hflush]
                obtain ⟨t2, ht2, hrel2⟩ := ih ⟨dsf, [], [], false⟩ ⟨dsf, [], [], false⟩
                  st2 h ⟨rfl, rfl, rfl⟩
                refine ⟨t2, ?_, hrel2⟩
                simp only [scanLines]
                rw [htstep]
                exact ht2
          · unfold scanStep at hstep
            rw [if_neg hc, if_neg hsemi, if_neg hblank] at hstep
            injection hstep with h1
            subst h1
            have htstep : scanStep q ig t raw = .ok ⟨t.detections,
                t.detection_str ++ [' '] ++ fullStrip raw ++ [' '], t.detection_name,
                t.comment_exists⟩ := by
              unfold scanStep
              rw [if_neg hc, if_neg hsemi, if_neg hblank]
            obtain ⟨t2, ht2, hrel2⟩ := ih
              ⟨st.detections, st.detection_str ++ [' '] ++ fullStrip raw ++ [' '],
                st.detection_name, st.comment_exists⟩
              ⟨t.detections, t.detection_str ++ [' '] ++ fullStrip raw ++ [' '],
                t.detection_name, t.comment_exists⟩
              st2 h ⟨hd, by rw [hs], hn⟩
            refine ⟨t2, ?_, hrel2⟩
            simp only [scanLines]
            rw [htstep]
            exact ht2

theorem eofFlush_rel (q ig : Bool) (st t st3 : ScanState)
    (h : eofFlush q ig st = .ok st3) (hrel : relState st t) :
    ∃ t3, eofFlush q ig t = .ok t3 ∧ relState st3 t3 := by
  obtain ⟨hd, hs, hn⟩ := hrel
  unfold eofFlush at h ⊢
  by_cases hse : st.detection_str.isEmpty = true
  · rw [if_neg (by simp [hse])] at h
    rw [if_neg (by simp [← hs, hse])]
    by_cases hne : st.detection_name.isEmpty = true
    · rw [if_neg (by simp [hne])] at h
      rw [if_neg (by simp [← hn, hne])]
      injection h with h1
      subst h1
      exact ⟨t, rfl, hd, hs, hn⟩
    · have hnef : st.detection_name.isEmpty = false := by simpa using hne
      rw [if_pos (by simp [hnef])] at h
      rw [if_pos (by simp [← hn, hnef])]
      cases ig with
      | false => simp at h
      | true =>
        rw [if_pos rfl] at h
        rw [if_pos rfl]
        injection h with h1
        subst h1
        exact ⟨t, rfl, hd, hs, hn⟩
  · have hsef : st.detection_str.isEmpty = false := by simpa using hse
    rw [if_pos (by simp [hsef])] at h
    rw [if_pos (by simp [← hs, hsef])]
    cases hflush : flushRecord q st with
    | error e =>
      rw [hflush] at h
      simp at h
    | ok dsf =>
      rw [hflush] at h
      replace h : Except.ok
          (⟨dsf, st.detection_str, st.detection_name, st.comment_exists⟩ : ScanState) =
          .ok st3 := h
      injection h with h1
      subst h1
      rw [← flushRecord_rel q st t ⟨hd, hs, hn⟩, hflush]
      exact ⟨⟨dsf, t.detection_str, t.detection_name, t.comment_exists⟩, rfl, rfl, hs, hn⟩

theorem finalCheck_rel (ig : Bool) (st t : ScanState) (hrel : relState st t) :
    finalCheck ig st = finalCheck ig t := by
  obtain ⟨hd, hs, hn⟩ := hrel
  unfold finalCheck
  rw [hd, hn]

/-- C3: comment lines (lines whose first non-whitespace character is '#')
are excluded from the source text of every returned record: removing all
comment lines from the input does not change a successful result of
`load_detections`. -/
theorem c3_comment_lines_excluded (q ig : Bool) (lines : List PyStr) (ds : List DetectionRec)
    (h : load_detections q ig lines = .ok ds) :
    load_detections q ig (lines.filter (fun l => !(startsWithCh '#' (fullStrip l)))) =
      .ok ds := by
  unfold load_detections at h ⊢
  cases hscan : scanLines q ig ⟨[], [], [], false⟩ lines with
  | error e =>
    rw [hscan] at h
    simp at h
  | ok st =>
    rw [hscan] at h
    replace h : (match eofFlush q ig st with
        | Except.error e => Except.error e
        | Except.ok st2 => finalCheck ig st2) = Except.ok ds := h
    obtain ⟨t, htscan, hrel⟩ := scanLines_filter_sim q ig lines ⟨[], [], [], false⟩
      ⟨[], [], [], false⟩ st hscan ⟨rfl, rfl, rfl⟩
    rw [htscan]
    cases heof : eofFlush q ig st with
    | error e =>
      rw [heof] at h
      simp at h
    | ok st3 =>
      rw [heof] at h
      replace h : finalCheck ig st3 = Except.ok ds := h
      obtain ⟨t3, hteof, hrel3⟩ := eofFlush_rel q ig st t st3 heof hrel
      show (match eofFlush q ig t with
        | Except.error e => Except.error e
        | Except.ok st2 => finalCheck ig st2) = Except.ok ds
      rw [hteof]
      show finalCheck ig t3 = Except.ok ds
      rw [← finalCheck_rel ig st3 t3 hrel3]
      exact h

theorem c3_comment_lines_excluded_witness :
    load_detections false false
        ([['#', 'c'], ['x']].filter (fun l => !(startsWithCh '#' (fullStrip l)))) =
      .ok [.rule ⟨some ['x'], none, none⟩] :=
  c3_comment_lines_excluded false false [['#', 'c'], ['x']]
    [.rule ⟨some ['x'], none, none⟩] (by rfl)
